import Mathlib

set_option linter.unusedVariables false

/-!
Shallow embedding of `app/services/opin_persistence/processor.py`:
the OPIN schema-to-validation-rule derivation engine.

Modelling conventions:
* Python dicts are association lists kept in insertion order (`d[k] = v`
  replaces in place if the key exists, else appends).
* A JSON schema fragment is the `Fragment` inductive holding exactly the
  keys the processor reads; a `none` field models an absent key.
* Enum values are kept as their rendered text (the code only ever takes
  `len(str(e))` of them).
* The SQLAlchemy-backed repository (`repository.py`, not part of the core
  source) is an explicit `Store` state with idempotent create-or-reuse
  upserts keyed by natural name, modelled from the spec.
-/

section Dict

variable {α : Type} {β : Type} [DecidableEq α]

/-- First-match association-list lookup (Python dict key access / membership). -/
def lookupKey : List (α × β) → α → Option β
  | [], _ => none
  | (k, v) :: t, x => if k = x then some v else lookupKey t x

/-- Replace the value stored at a key, keeping the list order
(Python dict update of an existing key). -/
def replaceKey : List (α × β) → α → β → List (α × β)
  | [], _, _ => []
  | (k, v) :: t, x, w => if k = x then (x, w) :: replaceKey t x w else (k, v) :: replaceKey t x w

/-- Python dict assignment `d[k] = v`: update in place when the key exists, else append. -/
def dictInsert (d : List (α × β)) (k : α) (v : β) : List (α × β) :=
  if (lookupKey d k).isSome then replaceKey d k v else d ++ [(k, v)]

/-- The keys of an association list are pairwise distinct (true of any Python dict). -/
def keysNodup (d : List (α × β)) : Prop := (d.map Prod.fst).Nodup

end Dict

/-- Characters after the last `/` of a path (posix `os.path.basename`). -/
def pathBasename (p : String) : String :=
  String.mk (p.toList.foldl (fun acc c => if c = '/' then [] else acc ++ [c]) [])

/-- ASCII lower-casing of one character (`str.lower` on the ASCII range). -/
def lowerChar (c : Char) : Char :=
  if 65 ≤ c.toNat ∧ c.toNat ≤ 90 then Char.ofNat (c.toNat + 32) else c

/-- ASCII lower-casing of a string (`str.lower`). -/
def lowerStr (s : String) : String := String.mk (s.toList.map lowerChar)

/-- Python `s.startswith(pat)`. -/
def strStartsWith (s pat : String) : Bool := pat.toList.isPrefixOf s.toList

/-- Python `s.endswith(pat)`. -/
def strEndsWith (s pat : String) : Bool := pat.toList.isSuffixOf s.toList

/-- Contiguous-sublist test on character lists. -/
def listInfix : List Char → List Char → Bool
  | pat, [] => pat.isEmpty
  | pat, c :: t => pat.isPrefixOf (c :: t) || listInfix pat t

/-- Python `pat in s` (substring containment). -/
def strContains (s pat : String) : Bool := listInfix pat.toList s.toList

/-- One JSON-schema node, with exactly the keys `processor.py` reads:
`type`, `maxLength`, `enum`, `$ref`, `properties`, `required`, `allOf`, `items`.
A `none` field models the key being absent from the Python dict; keys the
processor never reads (such as `description`) are not carried. -/
inductive Fragment where
  | mk (type? : Option String) (maxLength? : Option Nat) (enum? : Option (List String))
      (ref? : Option String) (properties? : Option (List (String × Fragment)))
      (required? : Option (List String)) (allOf? : Option (List Fragment))
      (items? : Option Fragment)

/-- Declared `type` key, if present. -/
def Fragment.type? : Fragment → Option String
  | .mk t _ _ _ _ _ _ _ => t

/-- Declared `maxLength` key, if present. -/
def Fragment.maxLength? : Fragment → Option Nat
  | .mk _ m _ _ _ _ _ _ => m

/-- Declared `enum` key, if present (values as their rendered text). -/
def Fragment.enum? : Fragment → Option (List String)
  | .mk _ _ e _ _ _ _ _ => e

/-- Declared `$ref` key, if present. -/
def Fragment.ref? : Fragment → Option String
  | .mk _ _ _ r _ _ _ _ => r

/-- Declared `properties` mapping, if present. -/
def Fragment.properties? : Fragment → Option (List (String × Fragment))
  | .mk _ _ _ _ p _ _ _ => p

/-- Declared `required` list, if present. -/
def Fragment.required? : Fragment → Option (List String)
  | .mk _ _ _ _ _ r _ _ => r

/-- Declared `allOf` list, if present. -/
def Fragment.allOf? : Fragment → Option (List Fragment)
  | .mk _ _ _ _ _ _ a _ => a

/-- Declared `items` fragment, if present. -/
def Fragment.items? : Fragment → Option Fragment
  | .mk _ _ _ _ _ _ _ i => i

/-- The fragment with every key absent (`{}`). -/
def Fragment.empty : Fragment := ⟨none, none, none, none, none, none, none, none⟩

/-- One persisted validation rule body: `{type, size, required, enum_values?}`. -/
structure RuleConfig where
  type : String
  size : Nat
  required : Bool
  enum_values : Option (List String)
deriving DecidableEq, Repr

/-- The persistence store: groups, datasets (`conjuntos`) and validation
rules (`regras`), each keyed by natural identity and carrying an opaque
numeric identifier. Modelled from the spec: `repository.py` is an external
collaborator exposing idempotent create-or-reuse upserts keyed by natural
name (group name; dataset name within a group; field name within a dataset),
with last-write-wins on rule content. -/
structure Store where
  grupos : List (String × Nat)
  conjuntos : List ((Nat × String) × Nat)
  regras : List ((Nat × String) × (Nat × RuleConfig))
  nextId : Nat
deriving DecidableEq, Repr

/-- The store with nothing persisted yet. -/
def emptyStore : Store := ⟨[], [], [], 0⟩

/-- Modelled from the spec: `upsert_grupo` — create-or-reuse a group by name. -/
def upsert_grupo (s : Store) (nome : String) : Nat × Store :=
  match lookupKey s.grupos nome with
  | some gid => (gid, s)
  | none => (s.nextId, ⟨s.grupos ++ [(nome, s.nextId)], s.conjuntos, s.regras, s.nextId + 1⟩)

/-- Modelled from the spec: `upsert_conjunto_dados` — create-or-reuse a
dataset by (group id, name). -/
def upsert_conjunto_dados (s : Store) (nome : String) (grupoId : Nat) : Nat × Store :=
  match lookupKey s.conjuntos (grupoId, nome) with
  | some cid => (cid, s)
  | none =>
      (s.nextId, ⟨s.grupos, s.conjuntos ++ [((grupoId, nome), s.nextId)], s.regras, s.nextId + 1⟩)

/-- Modelled from the spec: `upsert_regra_validacao` — create-or-reuse a
validation rule by (dataset id, field name), last-write-wins on content. -/
def upsert_regra_validacao (s : Store) (conjuntoId : Nat) (nome : String) (cfg : RuleConfig) :
    Nat × Store :=
  match lookupKey s.regras (conjuntoId, nome) with
  | some (rid, _) =>
      (rid, ⟨s.grupos, s.conjuntos, replaceKey s.regras (conjuntoId, nome) (rid, cfg), s.nextId⟩)
  | none =>
      (s.nextId,
       ⟨s.grupos, s.conjuntos, s.regras ++ [((conjuntoId, nome), (s.nextId, cfg))], s.nextId + 1⟩)

/-- `is_insurance_related_file`: lowercased basename starts with `insurance`,
or is one of the two special-cased file names. -/
def is_insurance_related_file (yaml_path : String) : Bool :=
  let b := lowerStr (pathBasename yaml_path)
  strStartsWith b "insurance" || b = "person.yaml" || b = "resources_v2.yaml"

/-- `extract_field_type`: the declared type if present; `string` for
reference-only and untyped fragments. -/
def extract_field_type (field_data : Fragment) : String :=
  match field_data.type? with
  | some t => t
  | none =>
      match field_data.ref? with
      | some _ => "string"
      | none => "string"

/-- Length of the longest value of an enum list when rendered as text
(`max([len(str(e)) for e in enum])`, with `0` for the empty list). -/
def maxTextLen (es : List String) : Nat :=
  es.foldl (fun a e => max a e.length) 0

/-- `calculate_field_size`: string fragments use `maxLength`, else the
longest enum text, else 100; numeric fragments use 10; everything else 1.
The `field_name` argument only feeds logging in the source. -/
def calculate_field_size (field_name : String) (field_data : Fragment) : Nat :=
  let field_type := extract_field_type field_data
  if field_type = "string" then
    match field_data.maxLength? with
    | some n => n
    | none =>
        match field_data.enum? with
        | some es => if es.isEmpty then 0 else maxTextLen es
        | none => 100
  else if field_type = "number" ∨ field_type = "integer" then 10
  else 1

/-- The synthetic fragment inserted for one sub-property of `amount`
(`{"type": field_type, "maxLength": field_size}`). -/
def amountSubFragment (sub_field : String) (sub_data : Fragment) : Fragment :=
  ⟨some (extract_field_type sub_data), some (calculate_field_size sub_field sub_data),
   none, none, none, none, none, none⟩

/-- The synthetic fragment inserted for one sub-property of `unit`
(`{"type": "string", "maxLength": unit_field_size}`). -/
def unitSubFragment (unit_field : String) (unit_data : Fragment) : Fragment :=
  ⟨some "string", some (calculate_field_size unit_field unit_data),
   none, none, none, none, none, none⟩

/-- Inner loop of the `allOf` flattener: expand the sub-properties of
`amount`, and two levels deep for `unit`. -/
def addAmountSubs (pp : List (String × Fragment)) (subs : List (String × Fragment)) :
    List (String × Fragment) :=
  subs.foldl
    (fun pp sub =>
      let pp1 := dictInsert pp ("amount_" ++ sub.1) (amountSubFragment sub.1 sub.2)
      if sub.1 = "unit" ∧ sub.2.properties?.isSome then
        (sub.2.properties?.getD []).foldl
          (fun pp2 u => dictInsert pp2 ("amount_unit_" ++ u.1) (unitSubFragment u.1 u.2)) pp1
      else pp1)
    pp

/-- One step of the `allOf` loop in `process_schema_fields`: an element whose
`$ref` contains `/AmountDetails` and which carries `properties` has its
`amount` entry (when it has nested properties) expanded into the property set. -/
def flattenItem (pp : List (String × Fragment)) (item : Fragment) : List (String × Fragment) :=
  let refMatch : Bool :=
    match item.ref? with
    | some r => strContains r "/AmountDetails"
    | none => false
  if refMatch ∧ item.properties?.isSome then
    (item.properties?.getD []).foldl
      (fun pp prop =>
        if prop.1 = "amount" ∧ prop.2.properties?.isSome then
          addAmountSubs pp (prop.2.properties?.getD [])
        else pp)
      pp
  else pp

/-- The `processed_properties` mapping built by the first half of
`process_schema_fields`: the schema's own properties, then `allOf` flattening. -/
def processedProperties (schema_data : Fragment) : List (String × Fragment) :=
  (schema_data.allOf?.getD []).foldl flattenItem (schema_data.properties?.getD [])

/-- Body of the per-property loop of `process_schema_fields`: `none` when the
property is skipped (insurance cross-reference suppression), otherwise the
validation rule built for it. -/
def emitRule (is_insurance : Bool) (required_fields : List String) (p : String × Fragment) :
    Option (String × RuleConfig) :=
  let refSkip : Bool :=
    match p.2.ref? with
    | some rv => !strEndsWith rv "/AmountDetails"
    | none => false
  let arraySkip : Bool :=
    decide (p.2.type? = some "array") &&
      (match p.2.items? with
       | some it => it.ref?.isSome
       | none => false)
  if is_insurance ∧ refSkip then none
  else if is_insurance ∧ arraySkip then none
  else
    some (p.1,
      { type := extract_field_type p.2
        size := calculate_field_size p.1 p.2
        required := (required_fields.contains p.1)
        enum_values :=
          match p.2.enum? with
          | some es => if es.isEmpty then none else some es
          | none => none })

/-- The ordered list of rules `process_schema_fields` emits for one schema. -/
def deriveRules (schema_data : Fragment) (is_insurance : Bool) : List (String × RuleConfig) :=
  (processedProperties schema_data).filterMap
    (emitRule is_insurance (schema_data.required?.getD []))

/-- `process_schema_fields`: derive and upsert the validation rules of one
schema, returning the number of processed fields and the updated store. -/
def process_schema_fields (session : Store) (schema_name : String) (schema_data : Fragment)
    (conjunto_id : Nat) (is_insurance_schema : Bool) : Nat × Store :=
  let required_fields := schema_data.required?.getD []
  (processedProperties schema_data).foldl
    (fun acc p =>
      match emitRule is_insurance_schema required_fields p with
      | none => acc
      | some (nome, cfg) =>
          (acc.1 + 1, (upsert_regra_validacao acc.2 conjunto_id nome cfg).2))
    (0, session)

/-- The fragment injected for `policyId`
(`{"type": "string", "maxLength": 100, "description": ...}`; the
description key is never read and is not carried by the model). -/
def policyIdFragment : Fragment :=
  ⟨some "string", some 100, none, none, none, none, none, none⟩

/-- The in-place `policyId` injection of `process_yaml_to_db` (lines 86-106):
when the property set lacks `policyId`, add the synthetic property and append
`policyId` to `required` if absent; when the property already exists, the
schema is left entirely unchanged. -/
def injectPolicyId (f : Fragment) : Fragment :=
  let props := f.properties?.getD []
  if (lookupKey props "policyId").isSome then f
  else
    let props' := dictInsert props "policyId" policyIdFragment
    let req := f.required?.getD []
    let req' := if req.contains "policyId" then req else req ++ ["policyId"]
    ⟨f.type?, f.maxLength?, f.enum?, f.ref?, some props', some req', f.allOf?, f.items?⟩

/-- The per-schema loop of `process_yaml_to_db`: skip `AmountDetails` on
insurance files, upsert the dataset, inject `policyId` on insurance files,
derive and upsert rules. Returns the names of processed schemas (those that
emitted at least one rule), the final (possibly mutated) schema mapping, and
the final store. -/
def processSchemasLoop (grupoId : Nat) (ins : Bool) :
    List (String × Fragment) → Store → List String × List (String × Fragment) × Store
  | [], s => ([], [], s)
  | (nome, dados) :: t, s =>
      if nome = "AmountDetails" ∧ ins = true then
        let r := processSchemasLoop grupoId ins t s
        (r.1, (nome, dados) :: r.2.1, r.2.2)
      else
        let c := upsert_conjunto_dados s nome grupoId
        let dados' := if ins then injectPolicyId dados else dados
        let f := process_schema_fields c.2 nome dados' c.1 ins
        let r := processSchemasLoop grupoId ins t f.2
        ((if 0 < f.1 then nome :: r.1 else r.1), (nome, dados') :: r.2.1, r.2.2)

/-- Group-name resolution: prefer the document-level API name when the loader
supplied a truthy (non-empty) one, else the caller-provided fallback. -/
def resolveGroupName (apiNameFromYaml : Option String) (api_name : String) : String :=
  match apiNameFromYaml with
  | some s => if s.isEmpty then api_name else s
  | none => api_name

/-- `process_yaml_to_db`: the document-level entry point. The loader results
(schema mapping and optional document-level API name) are passed in, since
YAML parsing is an external collaborator. Returns the boolean outcome, the
final (possibly mutated in place, as in the source) schema mapping, and the
final store. -/
def process_yaml_to_db (yaml_path api_name : String) (apiNameFromYaml : Option String)
    (schemas : List (String × Fragment)) (session : Store) :
    Bool × List (String × Fragment) × Store :=
  if schemas.isEmpty then (false, schemas, session)
  else
    let grupo_nome := resolveGroupName apiNameFromYaml api_name
    let g := upsert_grupo session grupo_nome
    let ins := is_insurance_related_file yaml_path
    let r := processSchemasLoop g.1 ins schemas g.2
    (!r.1.isEmpty, r.2.1, r.2.2)

/-! ### Association-list lemmas -/

section DictLemmas

variable {α : Type} {β : Type} [DecidableEq α]

theorem lookupKey_append_left {d d' : List (α × β)} {k : α} {v : β}
    (h : lookupKey d k = some v) : lookupKey (d ++ d') k = some v := by
  induction d with
  | nil => simp [lookupKey] at h
  | cons a t ih =>
      obtain ⟨ak, av⟩ := a
      by_cases hk : ak = k
      · subst hk
        simp [lookupKey] at h ⊢
        exact h
      · simp [lookupKey, hk] at h ⊢
        exact ih h

theorem lookupKey_append_right {d : List (α × β)} {k : α} (d' : List (α × β))
    (h : lookupKey d k = none) : lookupKey (d ++ d') k = lookupKey d' k := by
  induction d with
  | nil => simp
  | cons a t ih =>
      obtain ⟨ak, av⟩ := a
      by_cases hk : ak = k
      · subst hk; simp [lookupKey] at h
      · simp [lookupKey, hk] at h ⊢
        exact ih h

theorem lookupKey_replaceKey_self (d : List (α × β)) (k : α) (v : β) :
    lookupKey (replaceKey d k v) k = (lookupKey d k).map (fun _ => v) := by
  induction d with
  | nil => simp [lookupKey, replaceKey]
  | cons a t ih =>
      obtain ⟨ak, av⟩ := a
      by_cases hk : ak = k
      · subst hk; simp [lookupKey, replaceKey]
      · simp [lookupKey, replaceKey, hk]
        exact ih

theorem lookupKey_replaceKey_ne (d : List (α × β)) (k k' : α) (v : β) (h : k' ≠ k) :
    lookupKey (replaceKey d k v) k' = lookupKey d k' := by
  induction d with
  | nil => simp [replaceKey]
  | cons a t ih =>
      obtain ⟨ak, av⟩ := a
      by_cases hk : ak = k
      · subst hk
        simp [lookupKey, replaceKey, Ne.symm h]
        exact ih
      · by_cases hk' : ak = k'
        · subst hk'; simp [lookupKey, replaceKey, hk]
        · simp [lookupKey, replaceKey, hk, hk']
          exact ih

theorem replaceKey_keys (d : List (α × β)) (k : α) (v : β) :
    (replaceKey d k v).map Prod.fst = d.map Prod.fst := by
  induction d with
  | nil => simp [replaceKey]
  | cons a t ih =>
      obtain ⟨ak, av⟩ := a
      by_cases hk : ak = k
      · subst hk; simp [replaceKey, ih]
      · simp [replaceKey, hk, ih]

theorem lookupKey_eq_none_iff (d : List (α × β)) (k : α) :
    lookupKey d k = none ↔ k ∉ d.map Prod.fst := by
  induction d with
  | nil => simp [lookupKey]
  | cons a t ih =>
      obtain ⟨ak, av⟩ := a
      by_cases hk : ak = k
      · subst hk; simp [lookupKey]
      · simp [lookupKey, hk, ih, Ne.symm hk]

theorem lookupKey_mem_values {d : List (α × β)} {k : α} {v : β}
    (h : lookupKey d k = some v) : v ∈ d.map Prod.snd := by
  induction d with
  | nil => simp [lookupKey] at h
  | cons a t ih =>
      obtain ⟨ak, av⟩ := a
      by_cases hk : ak = k
      · subst hk
        simp [lookupKey] at h
        simp [h]
      · simp [lookupKey, hk] at h
        simp [ih h]

theorem replaceKey_not_mem {d : List (α × β)} {k : α} (v : β) (h : lookupKey d k = none) :
    replaceKey d k v = d := by
  induction d with
  | nil => simp [replaceKey]
  | cons a t ih =>
      obtain ⟨ak, av⟩ := a
      by_cases hk : ak = k
      · subst hk; simp [lookupKey] at h
      · simp [lookupKey, hk] at h
        simp [replaceKey, hk, ih h]

theorem replaceKey_eq_self {d : List (α × β)} {k : α} {v : β}
    (hnd : keysNodup d) (h : lookupKey d k = some v) : replaceKey d k v = d := by
  induction d with
  | nil => simp [lookupKey] at h
  | cons a t ih =>
      obtain ⟨ak, av⟩ := a
      unfold keysNodup at hnd
      simp only [List.map_cons, List.nodup_cons] at hnd
      by_cases hk : ak = k
      · subst hk
        simp [lookupKey] at h
        subst h
        have hnone : lookupKey t ak = none := (lookupKey_eq_none_iff t ak).2 hnd.1
        simp [replaceKey, replaceKey_not_mem _ hnone]
      · simp only [lookupKey, if_neg hk] at h
        simp [replaceKey, hk, ih hnd.2 h]

theorem lookupKey_distinct_values {d : List (α × β)} {k1 k2 : α} {v1 v2 : β}
    (hv : (d.map Prod.snd).Nodup) (h1 : lookupKey d k1 = some v1)
    (h2 : lookupKey d k2 = some v2) (hk : k1 ≠ k2) : v1 ≠ v2 := by
  induction d with
  | nil => simp [lookupKey] at h1
  | cons a t ih =>
      obtain ⟨ak, av⟩ := a
      simp only [List.map_cons, List.nodup_cons] at hv
      by_cases ha1 : ak = k1
      · subst ha1
        simp [lookupKey] at h1
        subst h1
        have hne : ¬ (ak = k2) := hk
        simp only [lookupKey, if_neg hne] at h2
        intro hcon
        exact hv.1 (hcon ▸ lookupKey_mem_values h2)
      · by_cases ha2 : ak = k2
        · subst ha2
          simp only [lookupKey, if_neg ha1] at h1
          simp [lookupKey] at h2
          subst h2
          intro hcon
          exact hv.1 (hcon ▸ lookupKey_mem_values h1)
        · simp only [lookupKey, if_neg ha1] at h1
          simp only [lookupKey, if_neg ha2] at h2
          exact ih hv.2 h1 h2

theorem lookupKey_dictInsert_self (d : List (α × β)) (k : α) (v : β) :
    lookupKey (dictInsert d k v) k = some v := by
  unfold dictInsert
  by_cases h : (lookupKey d k).isSome
  · rw [if_pos h, lookupKey_replaceKey_self]
    obtain ⟨w, hw⟩ := Option.isSome_iff_exists.1 h
    simp [hw]
  · rw [if_neg h]
    rw [lookupKey_append_right _ (Option.not_isSome_iff_eq_none.1 h)]
    simp [lookupKey]

theorem lookupKey_dictInsert_ne (d : List (α × β)) (k k' : α) (v : β) (h : k' ≠ k) :
    lookupKey (dictInsert d k v) k' = lookupKey d k' := by
  unfold dictInsert
  by_cases hs : (lookupKey d k).isSome
  · rw [if_pos hs, lookupKey_replaceKey_ne _ _ _ _ h]
  · rw [if_neg hs]
    cases hl : lookupKey d k' with
    | some w => rw [lookupKey_append_left hl]
    | none =>
        rw [lookupKey_append_right _ hl]
        simp [lookupKey, Ne.symm h]

theorem keysNodup_dictInsert {d : List (α × β)} (k : α) (v : β) (hd : keysNodup d) :
    keysNodup (dictInsert d k v) := by
  unfold dictInsert
  by_cases h : (lookupKey d k).isSome
  · rw [if_pos h]
    unfold keysNodup
    rw [replaceKey_keys]
    exact hd
  · rw [if_neg h]
    unfold keysNodup at hd ⊢
    have : k ∉ d.map Prod.fst :=
      (lookupKey_eq_none_iff d k).1 (Option.not_isSome_iff_eq_none.1 h)
    simp [List.nodup_append, hd, this]

end DictLemmas

/-! ### The Field Classifier (spec section 4.1) -/

/-- Modelled from the spec: the effective type of a fragment — the declared
type tag if present, defaulting to `string` for untyped and reference-only
fragments. -/
def effective_type (f : Fragment) : String := f.type?.getD "string"

/-- Modelled from the spec (4.1, `classify_size`): string fragments use the
explicit maximum length unchanged, else the textual length of the longest
enum value (0 for a present-but-empty enum), else 100; `number`/`integer`
fragments use 10; every other type uses 1. -/
def spec_classify_size (f : Fragment) : Nat :=
  if effective_type f = "string" then
    match f.maxLength? with
    | some L => L
    | none =>
        match f.enum? with
        | some [] => 0
        | some (e :: es) => maxTextLen (e :: es)
        | none => 100
  else if effective_type f = "number" ∨ effective_type f = "integer" then 10
  else 1

theorem extract_eq_effective (f : Fragment) : extract_field_type f = effective_type f := by
  obtain ⟨t, m, e, r, p, rq, a, i⟩ := f
  cases t <;> cases r <;> rfl

/-- Claim C3: `calculate_field_size` implements exactly the spec's size
classifier — explicit `maxLength` returned unchanged for strings, longest
enum text (0 when the enum list is empty) as fallback, default 100; fixed 10
for `number`/`integer`; fixed 1 otherwise; with the effective type
defaulting to `string` for untyped and reference-only fragments. -/
theorem c3_calculate_field_size_matches_spec (field_name : String) (f : Fragment) :
    calculate_field_size field_name f = spec_classify_size f := by
  obtain ⟨t, m, e, r, p, rq, a, i⟩ := f
  cases t <;> cases r <;> cases m <;> cases e <;> try rfl
  all_goals rename_i es
  all_goals cases es <;> rfl

/-! ### Claim C4: concrete `allOf` flattening scenario -/

/-- The schema of the spec's flattening scenario:
`allOf: [{ $ref: ".../AmountDetails", properties: { amount: { properties:
{ value: {type: number}, unit: { properties: { code: {type: string,
enum: [USD, BRL]} } } } } } }]`. -/
def c4Schema : Fragment :=
  ⟨none, none, none, none, none, none,
   some [⟨none, none, none, some "#/components/schemas/AmountDetails",
          some [("amount",
                 ⟨none, none, none, none,
                  some [("value", ⟨some "number", none, none, none, none, none, none, none⟩),
                        ("unit",
                         ⟨none, none, none, none,
                          some [("code",
                                 ⟨some "string", none, some ["USD", "BRL"],
                                  none, none, none, none, none⟩)],
                          none, none, none⟩)],
                  none, none, none⟩)],
          none, none, none⟩],
   none⟩

/-- Claim C4: for the spec's AmountDetails scenario the derived rule set
contains `amount_value` (type number, size 10) and `amount_unit_code`
(type string, size 3). -/
theorem c4_flattening_scenario :
    lookupKey (deriveRules c4Schema false) "amount_value"
        = some ⟨"number", 10, false, none⟩ ∧
    lookupKey (deriveRules c4Schema false) "amount_unit_code"
        = some ⟨"string", 3, false, none⟩ :=
  ⟨rfl, rfl⟩

/-! ### Claim C1: policyId injection -/

/-- A schema that already declares a `policyId` property but does not list it
as required. -/
def c1Schema : Fragment :=
  ⟨none, none, none, none,
   some [("policyId", ⟨some "string", none, none, none, none, none, none, none⟩)],
   none, none, none⟩

/-- Claim C1 counterexample: for a restricted document whose schema already
declares `policyId` but does not require it, the injection step leaves the
schema completely unchanged (the required-list insertion is nested inside the
property-insertion check, not independent), so the emitted `policyId` rule
has `required = false` — contradicting the claim that `policyId` still ends
up in the required list with a `required = true` rule. -/
theorem c1_counterexample :
    (process_yaml_to_db "insurance-x.yaml" "api" none [("S", c1Schema)] emptyStore).2.1
        = [("S", c1Schema)] ∧
    lookupKey (process_yaml_to_db "insurance-x.yaml" "api" none
        [("S", c1Schema)] emptyStore).2.2.regras (1, "policyId")
        = some (2, ⟨"string", 100, false, none⟩) :=
  ⟨rfl, rfl⟩

/-- Claim C1 (amended): the check-before-insert is nested, not independent —
when `policyId` is already a property the schema is left entirely unchanged
(so a non-required `policyId` stays non-required); only when the property is
absent does the injection add the string property (max length 100) and append
`policyId` to the required list if not already there. -/
theorem c1_injection_nested (f : Fragment) :
    ((lookupKey (f.properties?.getD []) "policyId").isSome = true → injectPolicyId f = f) ∧
    ((lookupKey (f.properties?.getD []) "policyId").isSome = false →
      lookupKey ((injectPolicyId f).properties?.getD []) "policyId" = some policyIdFragment ∧
      (injectPolicyId f).required?.getD [] =
        (if (f.required?.getD []).contains "policyId" then f.required?.getD []
         else f.required?.getD [] ++ ["policyId"])) := by
  constructor
  · intro h
    unfold injectPolicyId
    simp [h]
  · intro h
    unfold injectPolicyId
    simp only [h, Bool.false_eq_true, if_false]
    constructor
    · show lookupKey (dictInsert (f.properties?.getD []) "policyId" policyIdFragment)
          "policyId" = some policyIdFragment
      exact lookupKey_dictInsert_self _ _ _
    · rfl

/-- Witness for the amended C1 at a schema lacking `policyId`. -/
theorem c1_injection_nested_witness :
    lookupKey ((injectPolicyId Fragment.empty).properties?.getD []) "policyId"
      = some policyIdFragment :=
  ((c1_injection_nested Fragment.empty).2 rfl).1

/-! ### Claim C2: reference suppression in restricted mode -/

/-- A restricted-document schema with one array property whose `items`
reference targets the embeddable shape `AmountDetails` itself. -/
def c2Schema : Fragment :=
  ⟨none, none, none, none,
   some [("arr",
          ⟨some "array", none, none, none, none, none, none,
           some ⟨none, none, none, some "#/components/schemas/AmountDetails",
                 none, none, none, none⟩⟩)],
   none, none, none⟩

/-- Claim C2 counterexample: an array property whose `items` `$ref` targets
`AmountDetails` (the reference even ends with `/AmountDetails`) is still
dropped — the array branch of the suppression skips on ANY items reference,
never checking the target — contradicting the claim that a property whose
reference via its array items targets AmountDetails yields a rule. -/
theorem c2_counterexample :
    deriveRules c2Schema true = [] ∧
    strEndsWith "#/components/schemas/AmountDetails" "/AmountDetails" = true :=
  ⟨rfl, rfl⟩

/-- Claim C2 (amended): in restricted mode a property is skipped (no rule
emitted) exactly when its fragment carries a direct `$ref` not ending in
`/AmountDetails`, or is array-typed with an `items` fragment carrying any
`$ref` at all — for array items the reference target is never checked. -/
theorem c2_skip_condition (required_fields : List String) (p : String × Fragment) :
    emitRule true required_fields p = none ↔
      ((∃ rv, p.2.ref? = some rv ∧ strEndsWith rv "/AmountDetails" = false) ∨
       (p.2.type? = some "array" ∧ ∃ it, p.2.items? = some it ∧ (it.ref?).isSome = true)) := by
  obtain ⟨nm, f⟩ := p
  cases hr : f.ref? with
  | some rv =>
      by_cases hE : strEndsWith rv "/AmountDetails" = true
      · cases hi : f.items? with
        | some it =>
            by_cases hT : f.type? = some "array"
            · by_cases hS : (it.ref?).isSome = true
              · simp [emitRule, hr, hE, hi, hT, hS]
              · simp [emitRule, hr, hE, hi, hT, hS]
            · simp [emitRule, hr, hE, hi, hT]
        | none => simp [emitRule, hr, hE, hi]
      · simp only [Bool.not_eq_true] at hE
        simp [emitRule, hr, hE]
  | none =>
      cases hi : f.items? with
      | some it =>
          by_cases hT : f.type? = some "array"
          · by_cases hS : (it.ref?).isSome = true
            · simp [emitRule, hr, hi, hT, hS]
            · simp [emitRule, hr, hi, hT, hS]
          · simp [emitRule, hr, hi, hT]
      | none => simp [emitRule, hr, hi]

/-! ### Claim C5: frame properties of the composition flattener -/

theorem strToList_append (q s : String) : (q ++ s).toList = q.toList ++ s.toList := by
  obtain ⟨ql⟩ := q
  obtain ⟨sl⟩ := s
  rfl

theorem isPrefixOf_append_of {l1 l2 : List Char} (l3 : List Char)
    (h : l1.isPrefixOf l2 = true) : l1.isPrefixOf (l2 ++ l3) = true := by
  induction l1 generalizing l2 with
  | nil => cases l2 ++ l3 <;> rfl
  | cons a t ih =>
      cases l2 with
      | nil => simp [List.isPrefixOf] at h
      | cons b u =>
          simp only [List.isPrefixOf, Bool.and_eq_true] at h ⊢
          exact ⟨h.1, ih h.2⟩

theorem strStartsWith_append_of (p q s : String) (h : strStartsWith q p = true) :
    strStartsWith (q ++ s) p = true := by
  unfold strStartsWith at h ⊢
  rw [strToList_append]
  exact isPrefixOf_append_of _ h

/-- A name that does not start with `amount_` differs from every synthetic
`amount_`-name and every synthetic `amount_unit_`-name. -/
theorem ne_amount_name {n : String} (s : String) (hn : strStartsWith n "amount_" = false) :
    n ≠ "amount_" ++ s ∧ n ≠ "amount_unit_" ++ s := by
  constructor
  · intro he
    rw [he, strStartsWith_append_of "amount_" "amount_" s rfl] at hn
    cases hn
  · intro he
    rw [he, strStartsWith_append_of "amount_" "amount_unit_" s rfl] at hn
    cases hn

theorem lookupKey_addAmountSubs (n : String) (hn : strStartsWith n "amount_" = false)
    (subs : List (String × Fragment)) :
    ∀ pp : List (String × Fragment), lookupKey (addAmountSubs pp subs) n = lookupKey pp n := by
  unfold addAmountSubs
  induction subs with
  | nil => intro pp; rfl
  | cons sub t ih =>
      intro pp
      rw [List.foldl_cons, ih]
      by_cases hu : sub.1 = "unit" ∧ sub.2.properties?.isSome
      · rw [if_pos hu]
        have base :
            lookupKey (dictInsert pp ("amount_" ++ sub.1) (amountSubFragment sub.1 sub.2)) n
              = lookupKey pp n :=
          lookupKey_dictInsert_ne _ _ _ _ (ne_amount_name sub.1 hn).1
        generalize dictInsert pp ("amount_" ++ sub.1) (amountSubFragment sub.1 sub.2) = pp1 at base
        induction sub.2.properties?.getD [] generalizing pp1 with
        | nil => simpa using base
        | cons u ut ihu =>
            rw [List.foldl_cons]
            exact ihu _ (by
              rw [lookupKey_dictInsert_ne _ _ _ _ (ne_amount_name u.1 hn).2]
              exact base)
      · rw [if_neg hu]
        exact lookupKey_dictInsert_ne _ _ _ _ (ne_amount_name sub.1 hn).1

theorem lookupKey_flattenItem (n : String) (hn : strStartsWith n "amount_" = false)
    (pp : List (String × Fragment)) (item : Fragment) :
    lookupKey (flattenItem pp item) n = lookupKey pp n := by
  unfold flattenItem
  by_cases hc : ((match item.ref? with
      | some r => strContains r "/AmountDetails"
      | none => false) : Bool) = true ∧ item.properties?.isSome = true
  · rw [if_pos hc]
    induction item.properties?.getD [] generalizing pp with
    | nil => rfl
    | cons prop t ih =>
        rw [List.foldl_cons]
        by_cases hp : prop.1 = "amount" ∧ prop.2.properties?.isSome
        · rw [if_pos hp, ih, lookupKey_addAmountSubs n hn]
        · rw [if_neg hp, ih]
  · rw [if_neg hc]

/-- Whether one `allOf` element qualifies for flattening: its `$ref` contains
the substring `/AmountDetails` and it carries a `properties` mapping. -/
def qualifiesForFlattening (item : Fragment) : Bool :=
  (match item.ref? with
   | some r => strContains r "/AmountDetails"
   | none => false) && item.properties?.isSome

theorem flattenItem_not_qualifying (pp : List (String × Fragment)) (item : Fragment)
    (h : qualifiesForFlattening item = false) : flattenItem pp item = pp := by
  unfold flattenItem
  apply if_neg
  intro hcon
  unfold qualifiesForFlattening at h
  rw [hcon.1, hcon.2] at h
  cases h

theorem foldl_flattenItem_not_qual (l : List Fragment) (pp : List (String × Fragment))
    (h : ∀ item ∈ l, qualifiesForFlattening item = false) :
    l.foldl flattenItem pp = pp := by
  induction l generalizing pp with
  | nil => rfl
  | cons item t ih =>
      rw [List.foldl_cons, flattenItem_not_qualifying _ _ (h item (List.mem_cons_self item t))]
      exact ih pp (fun x hx => h x (List.mem_cons_of_mem _ hx))

theorem foldl_flattenItem_lookup (n : String) (hn : strStartsWith n "amount_" = false)
    (l : List Fragment) : ∀ pp : List (String × Fragment),
    lookupKey (l.foldl flattenItem pp) n = lookupKey pp n := by
  induction l with
  | nil => intro pp; rfl
  | cons item t ih =>
      intro pp
      rw [List.foldl_cons, ih, lookupKey_flattenItem n hn]

/-- Claim C5 (amended): the flattener's qualifying condition is a `$ref`
CONTAINING the substring `/AmountDetails` (not one ending in the shape name)
together with a `properties` mapping; when no `allOf` element qualifies —
in particular when there is no `allOf` at all — the property set is used
unmodified, and in every case properties whose names do not start with
`amount_` are left untouched. -/
theorem c5_flatten_frame (f : Fragment) :
    (((f.allOf?.getD []).all fun item => !qualifiesForFlattening item) = true →
      processedProperties f = f.properties?.getD []) ∧
    (∀ n : String, strStartsWith n "amount_" = false →
      lookupKey (processedProperties f) n = lookupKey (f.properties?.getD []) n) := by
  constructor
  · intro h
    rw [List.all_eq_true] at h
    unfold processedProperties
    exact foldl_flattenItem_not_qual _ _ (fun item hi => by
      have hq := h item hi
      simpa using hq)
  · intro n hn
    unfold processedProperties
    exact foldl_flattenItem_lookup n hn _ _

/-- An `allOf` element whose reference does not end in the shape name but
does contain `/AmountDetails` as a substring. -/
def c5Item : Fragment :=
  ⟨none, none, none, some "#/AmountDetails2",
   some [("amount",
          ⟨none, none, none, none,
           some [("value", ⟨some "number", none, none, none, none, none, none, none⟩)],
           none, none, none⟩)],
   none, none, none⟩

/-- A schema whose only `allOf` element is `c5Item` and which declares no
properties of its own. -/
def c5Schema : Fragment := ⟨none, none, none, none, none, none, some [c5Item], none⟩

/-- Claim C5 counterexample: the element's `$ref` `#/AmountDetails2` does not
end in the shape name `AmountDetails`, yet the flattener still fires (the
code tests substring containment of `/AmountDetails`), changing the property
set — contradicting the claim's "exactly for those composed elements ...
carrying a reference string ending in AmountDetails". -/
theorem c5_counterexample :
    strEndsWith "#/AmountDetails2" "AmountDetails" = false ∧
    c5Schema.properties?.getD [] = [] ∧
    processedProperties c5Schema ≠ [] :=
  ⟨rfl, rfl, fun h => absurd (congrArg List.length h) (by decide)⟩

/-- A schema with one plain property and no `allOf`. -/
def c5NoAllOf : Fragment :=
  ⟨none, none, none, none, some [("a", Fragment.empty)], none, none, none⟩

/-- Witness for the amended C5 at a schema with no `allOf`. -/
theorem c5_flatten_frame_witness :
    processedProperties c5NoAllOf = c5NoAllOf.properties?.getD [] :=
  (c5_flatten_frame c5NoAllOf).1 rfl

/-! ### Claim C6: positivity of emitted rule sizes -/

theorem foldl_max_le_base (t : List String) :
    ∀ a : Nat, a ≤ t.foldl (fun a e => max a e.length) a := by
  induction t with
  | nil => intro a; exact le_refl a
  | cons e t ih => intro a; exact le_trans (le_max_left a e.length) (ih _)

theorem le_maxTextLen {s : String} {es : List String} (hs : s ∈ es) :
    s.length ≤ maxTextLen es := by
  unfold maxTextLen
  have key : ∀ (l : List String) (a : Nat), s ∈ l →
      s.length ≤ l.foldl (fun a e => max a e.length) a := by
    intro l
    induction l with
    | nil => intro a ha; cases ha
    | cons e t ih =>
        intro a ha
        rcases List.mem_cons.1 ha with rfl | hm
        · exact le_trans (le_max_right a s.length) (foldl_max_le_base t _)
        · exact ih _ hm
  exact key es 0 hs

/-- The per-fragment condition under which the classifier must produce a
positive size: an explicit `maxLength` (when the effective type is string)
is at least 1, and an enum list used for sizing contains a value with at
least one character. -/
def sizeHyp (f : Fragment) : Prop :=
  extract_field_type f = "string" →
    match f.maxLength? with
    | some n => 1 ≤ n
    | none =>
        match f.enum? with
        | some es => ∃ s ∈ es, 1 ≤ s.length
        | none => True

theorem size_pos_of_sizeHyp (nm : String) (f : Fragment) (h : sizeHyp f) :
    1 ≤ calculate_field_size nm f := by
  unfold calculate_field_size
  by_cases ht : extract_field_type f = "string"
  · rw [if_pos ht]
    have h2 := h ht
    cases hm : f.maxLength? with
    | some n =>
        rw [hm] at h2
        exact h2
    | none =>
        rw [hm] at h2
        cases he : f.enum? with
        | none => norm_num
        | some es =>
            rw [he] at h2
            obtain ⟨s, hs, hlen⟩ := h2
            have hne : es.isEmpty = false := by
              cases es
              · cases hs
              · rfl
            simp only [hne, Bool.false_eq_true, if_false]
            exact le_trans hlen (le_maxTextLen hs)
  · rw [if_neg ht]
    by_cases hn : extract_field_type f = "number" ∨ extract_field_type f = "integer"
    · rw [if_pos hn]; norm_num
    · rw [if_neg hn]

theorem emitRule_some {i : Bool} {req : List String} {p : String × Fragment}
    {r : String × RuleConfig} (he : emitRule i req p = some r) :
    r.1 = p.1 ∧ r.2.size = calculate_field_size p.1 p.2 := by
  simp only [emitRule] at he
  split at he
  · cases he
  · split at he
    · cases he
    · injection he with h
      subst h
      exact ⟨rfl, rfl⟩

/-- Claim C6 (amended): every emitted rule has a positive size PROVIDED every
property of the final flattened property set satisfies `sizeHyp` (explicit
string `maxLength` at least 1, enum-based sizing fed by a value with nonempty
text); without that proviso a rule of size 0 can be emitted, see the
counterexample. -/
theorem c6_rule_size_positive (d : Fragment) (ins : Bool)
    (h : ∀ p ∈ processedProperties d, sizeHyp p.2) :
    ∀ r ∈ deriveRules d ins, 1 ≤ r.2.size := by
  intro r hr
  unfold deriveRules at hr
  rw [List.mem_filterMap] at hr
  obtain ⟨p, hp, he⟩ := hr
  rw [(emitRule_some he).2]
  exact size_pos_of_sizeHyp p.1 p.2 (h p hp)

/-- A schema with one string property whose `maxLength` is 5. -/
def c6GoodSchema : Fragment :=
  ⟨none, none, none, none,
   some [("f1", ⟨some "string", some 5, none, none, none, none, none, none⟩)],
   none, none, none⟩

/-- Witness for the amended C6 at a schema satisfying the proviso. -/
theorem c6_rule_size_positive_witness : 1 ≤ (RuleConfig.mk "string" 5 false none).size :=
  c6_rule_size_positive c6GoodSchema false
    (by
      intro p hp
      have hred : processedProperties c6GoodSchema
          = [("f1", ⟨some "string", some 5, none, none, none, none, none, none⟩)] := rfl
      rw [hred, List.mem_singleton] at hp
      subst hp
      intro _
      show (1 : Nat) ≤ 5
      norm_num)
    ("f1", ⟨"string", 5, false, none⟩)
    (by
      have hred : deriveRules c6GoodSchema false = [("f1", ⟨"string", 5, false, none⟩)] := rfl
      rw [hred]
      exact List.mem_singleton.2 rfl)

/-- A schema with one string property carrying a present-but-empty enum list. -/
def c6BadSchema : Fragment :=
  ⟨none, none, none, none,
   some [("x", ⟨some "string", none, some [], none, none, none, none, none⟩)],
   none, none, none⟩

/-- Claim C6 counterexample: a string property with a present-but-empty enum
list yields an emitted rule of size 0 — not a positive integer. -/
theorem c6_counterexample :
    deriveRules c6BadSchema false = [("x", ⟨"string", 0, false, none⟩)] := rfl

/-! ### Store frame lemmas and the per-schema loop -/

theorem upsert_grupo_frame (s : Store) (n : String) :
    ((upsert_grupo s n).2).conjuntos = s.conjuntos ∧ ((upsert_grupo s n).2).regras = s.regras := by
  unfold upsert_grupo
  cases h : lookupKey s.grupos n with
  | none => exact ⟨rfl, rfl⟩
  | some g => exact ⟨rfl, rfl⟩

theorem upsert_conjunto_frame (s : Store) (n : String) (g : Nat) :
    ((upsert_conjunto_dados s n g).2).grupos = s.grupos ∧
    ((upsert_conjunto_dados s n g).2).regras = s.regras := by
  unfold upsert_conjunto_dados
  cases h : lookupKey s.conjuntos (g, n) with
  | none => exact ⟨rfl, rfl⟩
  | some c => exact ⟨rfl, rfl⟩

theorem upsert_regra_frame (s : Store) (c : Nat) (n : String) (cfg : RuleConfig) :
    ((upsert_regra_validacao s c n cfg).2).grupos = s.grupos ∧
    ((upsert_regra_validacao s c n cfg).2).conjuntos = s.conjuntos := by
  unfold upsert_regra_validacao
  cases h : lookupKey s.regras (c, n) with
  | none => exact ⟨rfl, rfl⟩
  | some p =>
      obtain ⟨rid, old⟩ := p
      exact ⟨rfl, rfl⟩

/-- Splitting the per-property loop of `process_schema_fields`: the count is
the number of emitted rules and the store is the fold of their upserts. -/
theorem foldl_emit_split (em : String × Fragment → Option (String × RuleConfig)) (cid : Nat) :
    ∀ (props : List (String × Fragment)) (k : Nat) (s : Store),
    props.foldl
      (fun acc p =>
        match em p with
        | none => acc
        | some (nome, cfg) => (acc.1 + 1, (upsert_regra_validacao acc.2 cid nome cfg).2))
      (k, s)
      = (k + (props.filterMap em).length,
         (props.filterMap em).foldl (fun σ r => (upsert_regra_validacao σ cid r.1 r.2).2) s) := by
  intro props
  induction props with
  | nil => intro k s; simp
  | cons p t ih =>
      intro k s
      rw [List.foldl_cons]
      cases hp : em p with
      | none => simp only [hp, List.filterMap_cons, ih]
      | some r =>
          obtain ⟨nome, cfg⟩ := r
          simp only [hp, List.filterMap_cons, ih, List.foldl_cons, List.length_cons]
          exact Prod.ext (by omega) rfl

theorem process_schema_fields_spec (s : Store) (nm : String) (d : Fragment) (cid : Nat)
    (i : Bool) :
    process_schema_fields s nm d cid i
      = ((deriveRules d i).length,
         (deriveRules d i).foldl (fun σ r => (upsert_regra_validacao σ cid r.1 r.2).2) s) := by
  unfold process_schema_fields deriveRules
  rw [foldl_emit_split]
  simp

theorem foldl_regras_frame (cid : Nat) (rs : List (String × RuleConfig)) :
    ∀ s : Store,
    ((rs.foldl (fun σ r => (upsert_regra_validacao σ cid r.1 r.2).2) s)).grupos = s.grupos ∧
    ((rs.foldl (fun σ r => (upsert_regra_validacao σ cid r.1 r.2).2) s)).conjuntos
      = s.conjuntos := by
  induction rs with
  | nil => intro s; exact ⟨rfl, rfl⟩
  | cons r t ih =>
      intro s
      rw [List.foldl_cons]
      have h1 := upsert_regra_frame s cid r.1 r.2
      have h2 := ih ((upsert_regra_validacao s cid r.1 r.2).2)
      exact ⟨h2.1.trans h1.1, h2.2.trans h1.2⟩

theorem process_schema_fields_frame (s : Store) (nm : String) (d : Fragment) (cid : Nat)
    (i : Bool) :
    ((process_schema_fields s nm d cid i).2).grupos = s.grupos ∧
    ((process_schema_fields s nm d cid i).2).conjuntos = s.conjuntos := by
  rw [process_schema_fields_spec]
  exact foldl_regras_frame cid _ s

/-- The dataset names present in the store. -/
def conjNames (s : Store) : List String := s.conjuntos.map (fun e => e.1.2)

theorem conjNames_upsert_conjunto (s : Store) (n : String) (g : Nat) (x : String)
    (hx : x ∈ conjNames ((upsert_conjunto_dados s n g).2)) : x ∈ conjNames s ∨ x = n := by
  unfold upsert_conjunto_dados at hx
  cases h : lookupKey s.conjuntos (g, n) with
  | some c =>
      rw [h] at hx
      exact Or.inl hx
  | none =>
      rw [h] at hx
      unfold conjNames at hx
      simp only [List.map_append] at hx
      rcases List.mem_append.1 hx with hl | hr
      · exact Or.inl hl
      · simp at hr
        exact Or.inr hr

/-! ### Claim C7: the AmountDetails dataset -/

theorem loop_no_amountdetails (gid : Nat) (l : List (String × Fragment)) :
    ∀ s : Store, "AmountDetails" ∉ conjNames s →
      "AmountDetails" ∉ conjNames ((processSchemasLoop gid true l s).2.2) := by
  induction l with
  | nil => intro s h0; exact h0
  | cons e t ih =>
      intro s h0
      obtain ⟨n, d⟩ := e
      simp only [processSchemasLoop]
      split
      · exact ih s h0
      · next hcond =>
          have hn : ¬ n = "AmountDetails" := fun hne => hcond ⟨hne, trivial⟩
          simp only [if_true]
          apply ih
          have hframe :=
            (process_schema_fields_frame (upsert_conjunto_dados s n gid).2 n
              (injectPolicyId d) (upsert_conjunto_dados s n gid).1 true).2
          show "AmountDetails" ∉ conjNames _
          unfold conjNames
          rw [hframe]
          intro hmem
          rcases conjNames_upsert_conjunto s n gid _ hmem with h | h
          · exact h0 h
          · exact hn h.symm

theorem upsert_grupo_conjNames (s : Store) (n : String) :
    conjNames ((upsert_grupo s n).2) = conjNames s := by
  unfold conjNames
  rw [(upsert_grupo_frame s n).1]

/-- Claim C7 (amended): the skip for the embeddable shape applies only to
restricted documents — when the document is classified as insurance-related,
no dataset named `AmountDetails` is ever created; non-restricted documents DO
create one (see the counterexample). -/
theorem c7_restricted_no_amountdetails_dataset (path api : String) (o : Option String)
    (schemas : List (String × Fragment)) (store : Store)
    (hins : is_insurance_related_file path = true)
    (h0 : "AmountDetails" ∉ conjNames store) :
    "AmountDetails" ∉ conjNames (process_yaml_to_db path api o schemas store).2.2 := by
  unfold process_yaml_to_db
  by_cases hs : schemas.isEmpty
  · rw [if_pos hs]; exact h0
  · rw [if_neg hs]
    simp only [hins]
    apply loop_no_amountdetails
    rw [upsert_grupo_conjNames]
    exact h0

/-- Witness for the amended C7 at a concrete restricted document. -/
theorem c7_restricted_witness :
    "AmountDetails" ∉ conjNames (process_yaml_to_db "insurance-w.yaml" "api" none
      [("AmountDetails", Fragment.empty), ("W", Fragment.empty)] emptyStore).2.2 :=
  c7_restricted_no_amountdetails_dataset "insurance-w.yaml" "api" none
    [("AmountDetails", Fragment.empty), ("W", Fragment.empty)] emptyStore rfl
    (by simp [conjNames, emptyStore])

/-- Claim C7 counterexample: for a NON-restricted document containing an
`AmountDetails` schema, the dataset IS created — the skip at line 77 of the
source requires `yaml_is_insurance`, contradicting the claim's "whether or
not it is classified as restricted". -/
theorem c7_counterexample :
    is_insurance_related_file "other.yaml" = false ∧
    conjNames (process_yaml_to_db "other.yaml" "api" none
      [("AmountDetails", Fragment.empty)] emptyStore).2.2 = ["AmountDetails"] :=
  ⟨rfl, rfl⟩

/-! ### Claim C10: mutation of the input document -/

theorem loop_docs_id (gid : Nat) (l : List (String × Fragment)) :
    ∀ s : Store, (processSchemasLoop gid false l s).2.1 = l := by
  induction l with
  | nil => intro s; rfl
  | cons e t ih =>
      intro s
      obtain ⟨n, d⟩ := e
      simp only [processSchemasLoop]
      split
      · next hc => exact Bool.noConfusion hc.2
      · simp only [Bool.false_eq_true, if_false]
        rw [ih]

/-- Claim C10 (amended): only non-restricted documents are read-only — the
engine returns the schema mapping exactly as the loader produced it when the
document is not insurance-related; restricted documents are mutated in place
by the `policyId` injection (see the counterexample). -/
theorem c10_unrestricted_input_readonly (path api : String) (o : Option String)
    (schemas : List (String × Fragment)) (store : Store)
    (h : is_insurance_related_file path = false) :
    (process_yaml_to_db path api o schemas store).2.1 = schemas := by
  unfold process_yaml_to_db
  by_cases hs : schemas.isEmpty
  · rw [if_pos hs]
  · rw [if_neg hs]
    simp only [h]
    exact loop_docs_id _ schemas _

/-- Witness for the amended C10 at a concrete non-restricted document. -/
theorem c10_unrestricted_witness :
    (process_yaml_to_db "data.yaml" "api" none [("S", Fragment.empty)] emptyStore).2.1
      = [("S", Fragment.empty)] :=
  c10_unrestricted_input_readonly "data.yaml" "api" none [("S", Fragment.empty)] emptyStore rfl

/-- Claim C10 counterexample: for a restricted document whose schema lacks
`policyId`, the schema-fragment mapping after processing differs from what
the loader produced — the injection mutates the document in place (its
properties mapping gains `policyId`), contradicting "read-only to the
engine". -/
theorem c10_counterexample :
    (process_yaml_to_db "insurance-x.yaml" "api" none [("T", Fragment.empty)] emptyStore).2.1
      ≠ [("T", Fragment.empty)] := by
  intro h
  have h2 := congrArg
    (fun l => (((lookupKey l "T").getD Fragment.empty).properties?.getD []).length) h
  exact absurd h2 (by decide)

/-! ### Claim C8: boolean outcome of the document processor -/

theorem loop_names (gid : Nat) (ins : Bool) (l : List (String × Fragment)) :
    ∀ s : Store,
    (processSchemasLoop gid ins l s).1
      = l.filterMap (fun e =>
          if e.1 = "AmountDetails" ∧ ins = true then none
          else if 0 < (deriveRules (if ins then injectPolicyId e.2 else e.2) ins).length
          then some e.1 else none) := by
  induction l with
  | nil => intro s; rfl
  | cons e t ih =>
      intro s
      obtain ⟨n, d⟩ := e
      by_cases hc : n = "AmountDetails" ∧ ins = true
      · simp only [processSchemasLoop, if_pos hc, List.filterMap_cons, ih]
      · simp only [processSchemasLoop, if_neg hc, List.filterMap_cons,
          process_schema_fields_spec]
        by_cases hcnt : 0 < (deriveRules (if ins then injectPolicyId d else d) ins).length
        · simp only [if_pos hcnt, ih]
        · simp only [if_neg hcnt, ih]

theorem filterMap_nonempty_iff {γ δ : Type} (f : γ → Option δ) (l : List γ) :
    ((!(l.filterMap f).isEmpty) = true) ↔ ∃ e ∈ l, f e ≠ none := by
  cases h : l.filterMap f with
  | nil =>
      constructor
      · intro hcon
        cases hcon
      · rintro ⟨e, he, hne⟩
        exact absurd (List.filterMap_eq_nil_iff.1 h e he) hne
  | cons x xs =>
      constructor
      · intro _
        have hx : x ∈ l.filterMap f := h ▸ List.mem_cons_self x xs
        rw [List.mem_filterMap] at hx
        obtain ⟨e, he, hfe⟩ := hx
        exact ⟨e, he, by rw [hfe]; exact fun hh => Option.noConfusion hh⟩
      · intro _
        rfl

theorem c8_skip_or_emit_iff (ins : Bool) (e : String × Fragment) :
    ((if e.1 = "AmountDetails" ∧ ins = true then none
      else if 0 < (deriveRules (if ins then injectPolicyId e.2 else e.2) ins).length
      then some e.1 else none) ≠ none) ↔
      (¬(e.1 = "AmountDetails" ∧ ins = true) ∧
       0 < (deriveRules (if ins then injectPolicyId e.2 else e.2) ins).length) := by
  by_cases h1 : e.1 = "AmountDetails" ∧ ins = true
  · simp [h1]
  · by_cases h2 : 0 < (deriveRules (if ins then injectPolicyId e.2 else e.2) ins).length
    · simp [h1, h2]
    · simp [h1, h2]

/-- Claim C8: `process_yaml_to_db` always returns a boolean (the embedding is
a total function, so no exception can propagate), and it returns `true`
exactly when some schema of the document is not skipped and emits at least
one rule: `false` for an empty schema mapping, `false` when every schema
emitted zero rules, `true` otherwise. -/
theorem c8_outcome_characterization (path api : String) (o : Option String)
    (schemas : List (String × Fragment)) (store : Store) :
    (process_yaml_to_db path api o schemas store).1 = true ↔
      ∃ e ∈ schemas, ¬(e.1 = "AmountDetails" ∧ is_insurance_related_file path = true) ∧
        0 < (deriveRules
              (if is_insurance_related_file path then injectPolicyId e.2 else e.2)
              (is_insurance_related_file path)).length := by
  unfold process_yaml_to_db
  by_cases hs : schemas.isEmpty
  · rw [if_pos hs]
    rw [List.isEmpty_iff] at hs
    subst hs
    simp
  · rw [if_neg hs]
    show (!(processSchemasLoop (upsert_grupo store (resolveGroupName o api)).1
        (is_insurance_related_file path) schemas
        (upsert_grupo store (resolveGroupName o api)).2).1.isEmpty) = true ↔ _
    rw [loop_names, filterMap_nonempty_iff]
    exact exists_congr (fun e =>
      and_congr_right (fun _ => c8_skip_or_emit_iff (is_insurance_related_file path) e))

/-! ### Claim C9: idempotence of reprocessing — store lemmas -/

theorem lookupKey_append_singleton_ne {α β : Type} [DecidableEq α]
    (d : List (α × β)) (k k' : α) (v : β) (h : k' ≠ k) :
    lookupKey (d ++ [(k, v)]) k' = lookupKey d k' := by
  cases hl : lookupKey d k' with
  | some w => rw [lookupKey_append_left hl]
  | none =>
      rw [lookupKey_append_right _ hl]
      simp [lookupKey, Ne.symm h]

theorem upsert_grupo_found {s : Store} {n : String} {g : Nat}
    (h : lookupKey s.grupos n = some g) : upsert_grupo s n = (g, s) := by
  unfold upsert_grupo
  rw [h]

theorem upsert_grupo_post (s : Store) (n : String) :
    lookupKey ((upsert_grupo s n).2).grupos n = some ((upsert_grupo s n).1) := by
  unfold upsert_grupo
  cases h : lookupKey s.grupos n with
  | some g => exact h
  | none =>
      show lookupKey (s.grupos ++ [(n, s.nextId)]) n = some s.nextId
      rw [lookupKey_append_right _ h]
      simp [lookupKey]

theorem upsert_conjunto_found {s : Store} {n : String} {g : Nat} {c : Nat}
    (h : lookupKey s.conjuntos (g, n) = some c) : upsert_conjunto_dados s n g = (c, s) := by
  unfold upsert_conjunto_dados
  rw [h]

theorem upsert_conjunto_post (s : Store) (n : String) (g : Nat) :
    lookupKey ((upsert_conjunto_dados s n g).2).conjuntos (g, n)
      = some ((upsert_conjunto_dados s n g).1) := by
  unfold upsert_conjunto_dados
  cases h : lookupKey s.conjuntos (g, n) with
  | some c => exact h
  | none =>
      show lookupKey (s.conjuntos ++ [((g, n), s.nextId)]) (g, n) = some s.nextId
      rw [lookupKey_append_right _ h]
      simp [lookupKey]

theorem upsert_conjunto_lookup_preserve {s : Store} {k : Nat × String} {v : Nat}
    (n : String) (g : Nat) (h : lookupKey s.conjuntos k = some v) :
    lookupKey ((upsert_conjunto_dados s n g).2).conjuntos k = some v := by
  unfold upsert_conjunto_dados
  cases hl : lookupKey s.conjuntos (g, n) with
  | some c => exact h
  | none =>
      show lookupKey (s.conjuntos ++ [((g, n), s.nextId)]) k = some v
      exact lookupKey_append_left h

theorem upsert_regra_post_self (s : Store) (c : Nat) (n : String) (cfg : RuleConfig) :
    lookupKey ((upsert_regra_validacao s c n cfg).2).regras (c, n)
      = some ((upsert_regra_validacao s c n cfg).1, cfg) := by
  unfold upsert_regra_validacao
  cases h : lookupKey s.regras (c, n) with
  | some p =>
      obtain ⟨rid, old⟩ := p
      show lookupKey (replaceKey s.regras (c, n) (rid, cfg)) (c, n) = some (rid, cfg)
      rw [lookupKey_replaceKey_self, h]
      rfl
  | none =>
      show lookupKey (s.regras ++ [((c, n), (s.nextId, cfg))]) (c, n) = some (s.nextId, cfg)
      rw [lookupKey_append_right _ h]
      simp [lookupKey]

theorem upsert_regra_lookup_ne {s : Store} {k : Nat × String} (c : Nat) (n : String)
    (cfg : RuleConfig) (h : (c, n) ≠ k) :
    lookupKey ((upsert_regra_validacao s c n cfg).2).regras k = lookupKey s.regras k := by
  unfold upsert_regra_validacao
  cases hl : lookupKey s.regras (c, n) with
  | some p =>
      obtain ⟨rid, old⟩ := p
      show lookupKey (replaceKey s.regras (c, n) (rid, cfg)) k = lookupKey s.regras k
      exact lookupKey_replaceKey_ne _ _ _ _ (Ne.symm h)
  | none =>
      show lookupKey (s.regras ++ [((c, n), (s.nextId, cfg))]) k = lookupKey s.regras k
      exact lookupKey_append_singleton_ne _ _ _ _ (Ne.symm h)

theorem upsert_regra_keysNodup {s : Store} (c : Nat) (n : String) (cfg : RuleConfig)
    (h : keysNodup s.regras) : keysNodup ((upsert_regra_validacao s c n cfg).2).regras := by
  unfold upsert_regra_validacao
  cases hl : lookupKey s.regras (c, n) with
  | some p =>
      obtain ⟨rid, old⟩ := p
      show keysNodup (replaceKey s.regras (c, n) (rid, cfg))
      unfold keysNodup at h ⊢
      rw [replaceKey_keys]
      exact h
  | none =>
      show keysNodup (s.regras ++ [((c, n), (s.nextId, cfg))])
      unfold keysNodup at h ⊢
      have : (c, n) ∉ s.regras.map Prod.fst := (lookupKey_eq_none_iff _ _).1 hl
      simp [List.nodup_append, h, this]

/-- The store well-formedness maintained by the engine from an empty store:
dataset keys and rule keys are unduplicated, dataset identifiers are pairwise
distinct and below the id counter. -/
def StoreInv (s : Store) : Prop :=
  keysNodup s.conjuntos ∧ (s.conjuntos.map Prod.snd).Nodup ∧
  (∀ v ∈ s.conjuntos.map Prod.snd, v < s.nextId) ∧ keysNodup s.regras

theorem storeInv_empty : StoreInv emptyStore := by
  refine ⟨?_, ?_, ?_, ?_⟩ <;> simp [emptyStore, keysNodup]

theorem upsert_grupo_inv {s : Store} (n : String) (h : StoreInv s) :
    StoreInv ((upsert_grupo s n).2) := by
  unfold upsert_grupo
  cases hl : lookupKey s.grupos n with
  | some g => exact h
  | none =>
      obtain ⟨h1, h2, h3, h4⟩ := h
      exact ⟨h1, h2, fun v hv => Nat.lt_succ_of_lt (h3 v hv), h4⟩

theorem upsert_conjunto_inv {s : Store} (n : String) (g : Nat) (h : StoreInv s) :
    StoreInv ((upsert_conjunto_dados s n g).2) := by
  unfold upsert_conjunto_dados
  cases hl : lookupKey s.conjuntos (g, n) with
  | some c => exact h
  | none =>
      obtain ⟨h1, h2, h3, h4⟩ := h
      refine ⟨?_, ?_, ?_, h4⟩
      · unfold keysNodup at h1 ⊢
        have : (g, n) ∉ s.conjuntos.map Prod.fst := (lookupKey_eq_none_iff _ _).1 hl
        simp [List.nodup_append, h1, this]
      · have : s.nextId ∉ s.conjuntos.map Prod.snd := fun hm => lt_irrefl _ (h3 _ hm)
        simp [List.nodup_append, h2, this]
      · intro v hv
        simp only [List.map_append, List.mem_append] at hv
        rcases hv with hv | hv
        · exact Nat.lt_succ_of_lt (h3 v hv)
        · simp at hv
          subst hv
          exact Nat.lt_succ_self _

theorem upsert_regra_inv {s : Store} (c : Nat) (n : String) (cfg : RuleConfig)
    (h : StoreInv s) : StoreInv ((upsert_regra_validacao s c n cfg).2) := by
  obtain ⟨h1, h2, h3, h4⟩ := h
  have hframe := upsert_regra_frame s c n cfg
  have hnd := upsert_regra_keysNodup c n cfg h4
  refine ⟨?_, ?_, ?_, hnd⟩
  · unfold keysNodup at h1 ⊢
    rw [hframe.2]
    exact h1
  · rw [hframe.2]
    exact h2
  · rw [hframe.2]
    intro v hv
    have hle : s.nextId ≤ ((upsert_regra_validacao s c n cfg).2).nextId := by
      unfold upsert_regra_validacao
      cases hl : lookupKey s.regras (c, n) with
      | some p =>
          obtain ⟨rid, old⟩ := p
          exact le_refl _
      | none => exact Nat.le_succ _
    exact lt_of_lt_of_le (h3 v hv) hle

theorem fold_regras_inv (c : Nat) (rs : List (String × RuleConfig)) :
    ∀ s : Store, StoreInv s →
      StoreInv (rs.foldl (fun σ r => (upsert_regra_validacao σ c r.1 r.2).2) s) := by
  induction rs with
  | nil => intro s h; exact h
  | cons a t ih =>
      intro s h
      rw [List.foldl_cons]
      exact ih _ (upsert_regra_inv c a.1 a.2 h)

theorem fold_regras_lookup_ne (c : Nat) (rs : List (String × RuleConfig)) :
    ∀ (s : Store) (k : Nat × String), (∀ r ∈ rs, (c, r.1) ≠ k) →
      lookupKey ((rs.foldl (fun σ r => (upsert_regra_validacao σ c r.1 r.2).2) s)).regras k
        = lookupKey s.regras k := by
  induction rs with
  | nil => intro s k h; rfl
  | cons a t ih =>
      intro s k h
      rw [List.foldl_cons, ih _ k (fun r hr => h r (List.mem_cons_of_mem a hr)),
        upsert_regra_lookup_ne c a.1 a.2 (h a (List.mem_cons_self a t))]

theorem fold_regras_post (c : Nat) (rs : List (String × RuleConfig)) :
    ∀ s : Store, keysNodup s.regras → (rs.map Prod.fst).Nodup →
      ∀ r ∈ rs, ∃ rid,
        lookupKey ((rs.foldl (fun σ r => (upsert_regra_validacao σ c r.1 r.2).2) s)).regras
          (c, r.1) = some (rid, r.2) := by
  induction rs with
  | nil => intro s _ _ r hr; cases hr
  | cons a t ih =>
      intro s h1 h2 r hr
      rw [List.foldl_cons]
      rcases List.mem_cons.1 hr with rfl | hrt
      · refine ⟨(upsert_regra_validacao s c r.1 r.2).1, ?_⟩
        rw [fold_regras_lookup_ne c t _ _ ?hne]
        · exact upsert_regra_post_self s c r.1 r.2
        case hne =>
          intro x hx hkeq
          have hx1 : x.1 = r.1 := congrArg Prod.snd hkeq
          rw [List.map_cons, List.nodup_cons] at h2
          exact h2.1 (hx1 ▸ List.mem_map_of_mem Prod.fst hx)
      · exact ih _ (upsert_regra_keysNodup c a.1 a.2 h1)
          ((List.nodup_cons.1 (by simpa using h2)).2) r hrt

theorem fold_regras_idem (c : Nat) (rs : List (String × RuleConfig)) :
    ∀ s : Store, keysNodup s.regras →
      (∀ r ∈ rs, ∃ rid, lookupKey s.regras (c, r.1) = some (rid, r.2)) →
      rs.foldl (fun σ r => (upsert_regra_validacao σ c r.1 r.2).2) s = s := by
  induction rs with
  | nil => intro s _ _; rfl
  | cons a t ih =>
      intro s hnd hall
      rw [List.foldl_cons]
      have hstep : (upsert_regra_validacao s c a.1 a.2).2 = s := by
        obtain ⟨rid, hl⟩ := hall a (List.mem_cons_self a t)
        unfold upsert_regra_validacao
        rw [hl]
        show (⟨s.grupos, s.conjuntos, replaceKey s.regras (c, a.1) (rid, a.2), s.nextId⟩
            : Store) = s
        rw [replaceKey_eq_self hnd hl]
      rw [hstep]
      exact ih s hnd (fun r hr => hall r (List.mem_cons_of_mem a hr))

theorem loop_grupos_frame (gid : Nat) (ins : Bool) (l : List (String × Fragment)) :
    ∀ s : Store, ((processSchemasLoop gid ins l s).2.2).grupos = s.grupos := by
  induction l with
  | nil => intro s; rfl
  | cons e t ih =>
      intro s
      obtain ⟨n, d⟩ := e
      by_cases hc : n = "AmountDetails" ∧ ins = true
      · simp only [processSchemasLoop, if_pos hc]
        exact ih s
      · simp only [processSchemasLoop, if_neg hc]
        rw [ih, (process_schema_fields_frame _ _ _ _ _).1, (upsert_conjunto_frame s n gid).1]

theorem loop_conj_lookup (gid : Nat) (ins : Bool) (l : List (String × Fragment)) :
    ∀ (s : Store) (k : Nat × String) (v : Nat), lookupKey s.conjuntos k = some v →
      lookupKey ((processSchemasLoop gid ins l s).2.2).conjuntos k = some v := by
  induction l with
  | nil => intro s k v h; exact h
  | cons e t ih =>
      intro s k v h
      obtain ⟨n, d⟩ := e
      by_cases hc : n = "AmountDetails" ∧ ins = true
      · simp only [processSchemasLoop, if_pos hc]
        exact ih s k v h
      · simp only [processSchemasLoop, if_neg hc]
        apply ih
        rw [(process_schema_fields_frame _ _ _ _ _).2]
        exact upsert_conjunto_lookup_preserve n gid h

theorem loop_inv (gid : Nat) (ins : Bool) (l : List (String × Fragment)) :
    ∀ s : Store, StoreInv s → StoreInv ((processSchemasLoop gid ins l s).2.2) := by
  induction l with
  | nil => intro s h; exact h
  | cons e t ih =>
      intro s h
      obtain ⟨n, d⟩ := e
      by_cases hc : n = "AmountDetails" ∧ ins = true
      · simp only [processSchemasLoop, if_pos hc]
        exact ih s h
      · simp only [processSchemasLoop, if_neg hc]
        apply ih
        rw [process_schema_fields_spec]
        dsimp only
        exact fold_regras_inv _ _ _ (upsert_conjunto_inv n gid h)

theorem loop_rules_preserve (gid : Nat) (ins : Bool) (l : List (String × Fragment)) :
    ∀ (σ : Store) (nm : String) (c : Nat), StoreInv σ →
      lookupKey σ.conjuntos (gid, nm) = some c →
      (∀ e ∈ l, e.1 ≠ nm) →
      ∀ (rn : String) (v : Nat × RuleConfig), lookupKey σ.regras (c, rn) = some v →
        lookupKey ((processSchemasLoop gid ins l σ).2.2).regras (c, rn) = some v := by
  induction l with
  | nil => intro σ nm c _ _ _ rn v h; exact h
  | cons e t ih =>
      intro σ nm c hinv hconj hne rn v hrule
      obtain ⟨m, d⟩ := e
      by_cases hc : m = "AmountDetails" ∧ ins = true
      · simp only [processSchemasLoop, if_pos hc]
        exact ih σ nm c hinv hconj (fun x hx => hne x (List.mem_cons_of_mem _ hx)) rn v hrule
      · simp only [processSchemasLoop, if_neg hc]
        have hinvA : StoreInv (upsert_conjunto_dados σ m gid).2 := upsert_conjunto_inv m gid hinv
        have hmnm : m ≠ nm := fun hmn => hne (m, d) (List.mem_cons_self _ _) hmn
        have hcm : (upsert_conjunto_dados σ m gid).1 ≠ c := by
          cases hl : lookupKey σ.conjuntos (gid, m) with
          | none =>
              have hfresh : (upsert_conjunto_dados σ m gid).1 = σ.nextId := by
                unfold upsert_conjunto_dados
                rw [hl]
              have hc_lt : c < σ.nextId := hinv.2.2.1 c (lookupKey_mem_values hconj)
              rw [hfresh]
              exact fun he => absurd (he ▸ hc_lt) (lt_irrefl _)
          | some cm =>
              have hfound : (upsert_conjunto_dados σ m gid).1 = cm := by
                unfold upsert_conjunto_dados
                rw [hl]
              rw [hfound]
              exact lookupKey_distinct_values hinv.2.1 hl hconj
                (fun hkeq => hmnm (congrArg Prod.snd hkeq))
        have hrule2 : lookupKey ((process_schema_fields (upsert_conjunto_dados σ m gid).2 m
            (if ins then injectPolicyId d else d) (upsert_conjunto_dados σ m gid).1 ins).2).regras
            (c, rn) = some v := by
          rw [process_schema_fields_spec]
          dsimp only
          rw [fold_regras_lookup_ne _ _ _ _ (fun r hr hkeq => hcm (congrArg Prod.fst hkeq)),
            (upsert_conjunto_frame σ m gid).2]
          exact hrule
        have hconj2 : lookupKey ((process_schema_fields (upsert_conjunto_dados σ m gid).2 m
            (if ins then injectPolicyId d else d) (upsert_conjunto_dados σ m gid).1 ins).2).conjuntos
            (gid, nm) = some c := by
          rw [(process_schema_fields_frame _ _ _ _ _).2]
          exact upsert_conjunto_lookup_preserve m gid hconj
        have hinvF : StoreInv (process_schema_fields (upsert_conjunto_dados σ m gid).2 m
            (if ins then injectPolicyId d else d) (upsert_conjunto_dados σ m gid).1 ins).2 := by
          rw [process_schema_fields_spec]
          dsimp only
          exact fold_regras_inv _ _ _ hinvA
        exact ih _ nm c hinvF hconj2 (fun x hx => hne x (List.mem_cons_of_mem _ hx)) rn v hrule2

theorem foldl_preserve {γ σTy : Type} {P : σTy → Prop} (step : σTy → γ → σTy)
    (hstep : ∀ a b, P a → P (step a b)) :
    ∀ (l : List γ) (a : σTy), P a → P (l.foldl step a) := by
  intro l
  induction l with
  | nil => intro a h; exact h
  | cons b t ih =>
      intro a h
      rw [List.foldl_cons]
      exact ih _ (hstep a b h)

theorem keysNodup_addAmountSubs (subs : List (String × Fragment))
    {pp : List (String × Fragment)} (h : keysNodup pp) : keysNodup (addAmountSubs pp subs) := by
  unfold addAmountSubs
  refine foldl_preserve _ (fun a b ha => ?_) subs pp h
  dsimp only
  by_cases hu : b.1 = "unit" ∧ b.2.properties?.isSome
  · rw [if_pos hu]
    exact foldl_preserve _ (fun x u hx => keysNodup_dictInsert _ _ hx) _ _
      (keysNodup_dictInsert _ _ ha)
  · rw [if_neg hu]
    exact keysNodup_dictInsert _ _ ha

theorem keysNodup_flattenItem {pp : List (String × Fragment)} (item : Fragment)
    (h : keysNodup pp) : keysNodup (flattenItem pp item) := by
  unfold flattenItem
  by_cases hc : ((match item.ref? with
      | some r => strContains r "/AmountDetails"
      | none => false) : Bool) = true ∧ item.properties?.isSome = true
  · rw [if_pos hc]
    refine foldl_preserve _ (fun a b ha => ?_) _ pp h
    dsimp only
    by_cases hb : b.1 = "amount" ∧ b.2.properties?.isSome
    · rw [if_pos hb]
      exact keysNodup_addAmountSubs _ ha
    · rw [if_neg hb]
      exact ha
  · rw [if_neg hc]
    exact h

theorem keysNodup_processedProperties {f : Fragment} (h : keysNodup (f.properties?.getD [])) :
    keysNodup (processedProperties f) := by
  unfold processedProperties
  exact foldl_preserve _ (fun a b ha => keysNodup_flattenItem b ha) _ _ h

theorem keysNodup_injectPolicyId {f : Fragment} (h : keysNodup (f.properties?.getD [])) :
    keysNodup ((injectPolicyId f).properties?.getD []) := by
  unfold injectPolicyId
  by_cases hl : (lookupKey (f.properties?.getD []) "policyId").isSome
  · rw [if_pos hl]
    exact h
  · rw [if_neg hl]
    show keysNodup (dictInsert (f.properties?.getD []) "policyId" policyIdFragment)
    exact keysNodup_dictInsert _ _ h

theorem deriveRules_names_sublist (d : Fragment) (ins : Bool) :
    ((deriveRules d ins).map Prod.fst).Sublist ((processedProperties d).map Prod.fst) := by
  unfold deriveRules
  generalize processedProperties d = props
  induction props with
  | nil => simp
  | cons p t ih =>
      rw [List.filterMap_cons]
      cases hp : emitRule ins (d.required?.getD []) p with
      | none =>
          simp only [List.map_cons]
          exact ih.cons _
      | some r =>
          simp only [List.map_cons, (emitRule_some hp).1]
          exact ih.cons₂ _

theorem deriveRules_names_nodup {d : Fragment} {ins : Bool}
    (h : keysNodup (processedProperties d)) : ((deriveRules d ins).map Prod.fst).Nodup :=
  (deriveRules_names_sublist d ins).nodup h

instance {α β : Type} [DecidableEq α] (d : List (α × β)) : Decidable (keysNodup d) := by
  unfold keysNodup
  infer_instance

theorem loop_idem (gid : Nat) (ins : Bool) :
    ∀ (l : List (String × Fragment)), (l.map Prod.fst).Nodup →
      (∀ e ∈ l, keysNodup (e.2.properties?.getD [])) →
      ∀ σ : Store, StoreInv σ →
        processSchemasLoop gid ins l ((processSchemasLoop gid ins l σ).2.2)
          = processSchemasLoop gid ins l σ := by
  intro l
  induction l with
  | nil => intro _ _ σ _; rfl
  | cons e t ih =>
      intro hnames hprops σ hinv
      obtain ⟨n, d⟩ := e
      simp only [List.map_cons, List.nodup_cons] at hnames
      by_cases hc : n = "AmountDetails" ∧ ins = true
      · simp only [processSchemasLoop, if_pos hc]
        rw [ih hnames.2 (fun x hx => hprops x (List.mem_cons_of_mem _ hx)) σ hinv]
      · simp only [processSchemasLoop, if_neg hc]
        set d' := (if ins then injectPolicyId d else d) with hd'
        set A := upsert_conjunto_dados σ n gid with hA
        set F := process_schema_fields A.2 n d' A.1 ins with hF
        set R := processSchemasLoop gid ins t F.2 with hR
        have hd0 : keysNodup (d.properties?.getD []) := hprops (n, d) (List.mem_cons_self _ _)
        have hd'nodup : keysNodup (d'.properties?.getD []) := by
          rw [hd']
          by_cases hi : ins = true
          · rw [if_pos hi]
            exact keysNodup_injectPolicyId hd0
          · rw [if_neg hi]
            exact hd0
        have hrulesnodup : ((deriveRules d' ins).map Prod.fst).Nodup :=
          deriveRules_names_nodup (keysNodup_processedProperties hd'nodup)
        have hinvA : StoreInv A.2 := upsert_conjunto_inv n gid hinv
        have hinvF : StoreInv F.2 := by
          rw [hF, process_schema_fields_spec]
          exact fold_regras_inv _ _ _ hinvA
        have hinvR : StoreInv R.2.2 := by
          rw [hR]
          exact loop_inv gid ins t F.2 hinvF
        have hconjA : lookupKey A.2.conjuntos (gid, n) = some A.1 := by
          rw [hA]
          exact upsert_conjunto_post σ n gid
        have hconjF : lookupKey F.2.conjuntos (gid, n) = some A.1 := by
          rw [hF, (process_schema_fields_frame _ _ _ _ _).2]
          exact hconjA
        have hconjR : lookupKey R.2.2.conjuntos (gid, n) = some A.1 := by
          rw [hR]
          exact loop_conj_lookup gid ins t F.2 _ _ hconjF
        have hA2 : upsert_conjunto_dados R.2.2 n gid = (A.1, R.2.2) :=
          upsert_conjunto_found hconjR
        have hpost : ∀ r ∈ deriveRules d' ins, ∃ rid,
            lookupKey F.2.regras (A.1, r.1) = some (rid, r.2) := by
          intro r hr
          rw [hF, process_schema_fields_spec]
          exact fold_regras_post A.1 _ A.2 hinvA.2.2.2 hrulesnodup r hr
        have hpostR : ∀ r ∈ deriveRules d' ins, ∃ rid,
            lookupKey R.2.2.regras (A.1, r.1) = some (rid, r.2) := by
          intro r hr
          obtain ⟨rid, hrid⟩ := hpost r hr
          refine ⟨rid, ?_⟩
          rw [hR]
          exact loop_rules_preserve gid ins t F.2 n A.1 hinvF hconjF
            (fun x hx hx1 => hnames.1 (by
              rw [← hx1]
              exact List.mem_map_of_mem Prod.fst hx)) r.1 _ hrid
        have hF2 : process_schema_fields R.2.2 n d' A.1 ins = (F.1, R.2.2) := by
          rw [process_schema_fields_spec]
          refine Prod.ext ?_ ?_
          · rw [hF, process_schema_fields_spec]
          · exact fold_regras_idem A.1 _ R.2.2 hinvR.2.2.2 (fun r hr => hpostR r hr)
        have hR2 : processSchemasLoop gid ins t R.2.2 = R := by
          rw [hR]
          exact ih hnames.2 (fun x hx => hprops x (List.mem_cons_of_mem _ hx)) F.2 hinvF
        simp only [hA2, hF2, hR2]

/-- Claim C9: reprocessing the same unchanged document against the
spec-modelled idempotent store yields identically the same outcome, the same
final document, and byte-for-byte the same store (same group, dataset and
rule identities, same rule bodies) as the first run from an empty store —
assuming the loader-produced document has distinct schema names and distinct
property names per schema (true of any Python dict). -/
theorem c9_reprocessing_idempotent (path api : String) (o : Option String)
    (schemas : List (String × Fragment))
    (hnames : keysNodup schemas)
    (hprops : ∀ e ∈ schemas, keysNodup (e.2.properties?.getD [])) :
    process_yaml_to_db path api o schemas
        (process_yaml_to_db path api o schemas emptyStore).2.2
      = process_yaml_to_db path api o schemas emptyStore := by
  unfold process_yaml_to_db
  by_cases hs : schemas.isEmpty
  · simp only [if_pos hs]
  · simp only [if_neg hs]
    have hinvG : StoreInv (upsert_grupo emptyStore (resolveGroupName o api)).2 :=
      upsert_grupo_inv _ storeInv_empty
    have hgr : lookupKey ((processSchemasLoop
        (upsert_grupo emptyStore (resolveGroupName o api)).1
        (is_insurance_related_file path) schemas
        (upsert_grupo emptyStore (resolveGroupName o api)).2).2.2).grupos
        (resolveGroupName o api)
        = some (upsert_grupo emptyStore (resolveGroupName o api)).1 := by
      rw [loop_grupos_frame]
      exact upsert_grupo_post emptyStore (resolveGroupName o api)
    have hG2 := upsert_grupo_found hgr
    have hloop := loop_idem (upsert_grupo emptyStore (resolveGroupName o api)).1
      (is_insurance_related_file path) schemas hnames hprops
      (upsert_grupo emptyStore (resolveGroupName o api)).2 hinvG
    simp only [hG2, hloop]

/-- A small restricted document for exercising the idempotence theorem. -/
def c9Doc : List (String × Fragment) :=
  [("P", ⟨none, none, none, none,
          some [("a", ⟨some "string", some 7, none, none, none, none, none, none⟩)],
          some ["a"], none, none⟩)]

/-- Witness for C9 at a concrete restricted document. -/
theorem c9_reprocessing_idempotent_witness :
    process_yaml_to_db "insurance-q.yaml" "api" none c9Doc
        (process_yaml_to_db "insurance-q.yaml" "api" none c9Doc emptyStore).2.2
      = process_yaml_to_db "insurance-q.yaml" "api" none c9Doc emptyStore :=
  c9_reprocessing_idempotent "insurance-q.yaml" "api" none c9Doc (by decide) (by decide)
